import Mathlib

/-
Verification development for the HOOMD-blue sources: domain decomposition,
the HPMC GPU update driver (reject-flag convergence loop, depletant
dispatch, update order), the harmonic bond force compute, and the particle
filter intersection.  Scalars are modelled as exact rationals; machine
floats introduce no further behaviour relevant to the properties below
except where explicitly noted (the isfinite guard in the bond force).
-/

set_option maxHeartbeats 1000000

namespace Hoomd

/-! ### ParticleFilterIntersection (src/hoomd/filter/ParticleFilterIntersection.h) -/

/-- Embedding of `std::set_intersection` on two sorted ranges of unsigned
ints: walk both lists, dropping the smaller head, emitting the head shared
by both. -/
def setIntersection : List ℕ → List ℕ → List ℕ
  | [], _ => []
  | _ :: _, [] => []
  | x :: xs, y :: ys =>
    if x < y then setIntersection xs (y :: ys)
    else if y < x then setIntersection (x :: xs) ys
    else x :: setIntersection xs ys
  termination_by xs ys => xs.length + ys.length

/-- Embedding of `ParticleFilterIntersection::getSelectedTags`: sort the tag
lists returned by the two component filters `f` and `g`, then take their
`std::set_intersection`.  The system definition is an opaque argument `sd`
threaded to both filters. -/
def getSelectedTags {α : Type} (f g : α → List ℕ) (sd : α) : List ℕ :=
  setIntersection
    (List.insertionSort (· ≤ ·) (f sd))
    (List.insertionSort (· ≤ ·) (g sd))

/-! ### UpdateOrderGPU (src/unnamed/part_002, detail::UpdateOrderGPU) -/

/-- State of `detail::UpdateOrderGPU`: the seed, the reversal flag and the
two stored permutation arrays. -/
structure UpdateOrderGPU where
  m_seed : ℕ
  m_is_reversed : Bool
  m_update_order : List ℕ
  m_reverse_update_order : List ℕ

/-- Embedding of `UpdateOrderGPU::resize`: a zero `N` or an `N` equal to the
current size is a no-op; otherwise both arrays are rebuilt
(`h_update_order.data[i] = i`, `h_reverse_update_order.data[i] = N - i - 1`)
and the reversal flag is cleared. -/
def UpdateOrderGPU.resize (s : UpdateOrderGPU) (N : ℕ) : UpdateOrderGPU :=
  if N = 0 ∨ N = s.m_update_order.length then s
  else
    { s with
      m_update_order := List.range N
      m_reverse_update_order := (List.range N).map (fun i => N - i - 1)
      m_is_reversed := false }

/-- Embedding of `UpdateOrderGPU::shuffle`.  The counter-based RNG
(`hoomd::RandomGenerator` with `UniformIntDistribution(1)`) is not under
src/ and is modelled from the spec as an abstract bit stream `rngBit`
keyed by (seed, timestep, select).  The method draws one bit and stores it
in the reversal flag; nothing else is touched. -/
def UpdateOrderGPU.shuffle (rngBit : ℕ → ℕ → ℕ → Bool)
    (s : UpdateOrderGPU) (timestep sel : ℕ) : UpdateOrderGPU :=
  { s with m_is_reversed := rngBit s.m_seed timestep sel }

/-- Embedding of `UpdateOrderGPU::operator[]`: read element `i` of the
reverse array when the flag is set, of the forward array otherwise. -/
def UpdateOrderGPU.opGet (s : UpdateOrderGPU) (i : ℕ) : ℕ :=
  (if s.m_is_reversed then s.m_reverse_update_order else s.m_update_order).getD i 0

/-! ### DomainDecomposition (src/libhoomd/communication/DomainDecomposition.cc) -/

/-- Search state of `DomainDecomposition::findDecomposition`: the current
best grid `(nx, ny, nz)`, the running minimum surface area and the
`found_decomposition` flag. -/
structure FDState where
  nx : ℕ
  ny : ℕ
  nz : ℕ
  minArea : ℚ
  found : Bool
deriving DecidableEq, Repr

/-- Interface area of a grid `(a, b, c)` for box extents `(Lx, Ly, Lz)`:
the quantity `L.x*L.y*nz_try + L.x*L.z*ny_try + L.y*L.z*nx_try` computed in
the loop body of `findDecomposition`. -/
def surfaceArea (Lx Ly Lz : ℚ) (a b c : ℕ) : ℚ :=
  Lx * Ly * c + Lx * Lz * b + Ly * Lz * a

/-- Loop body of `findDecomposition` for one candidate triple `t`: skip the
triple when a pinned dimension does not match (`continue`), skip when the
product is not the processor count `P`, otherwise adopt the triple when its
surface area is strictly smaller than the running minimum or when no
decomposition has been recorded yet. -/
def fdStep (Lx Ly Lz : ℚ) (P nxIn nyIn nzIn : ℕ) (s : FDState)
    (t : ℕ × ℕ × ℕ) : FDState :=
  if nxIn ≠ 0 ∧ t.1 ≠ nxIn then s
  else if nyIn ≠ 0 ∧ t.2.1 ≠ nyIn then s
  else if nzIn ≠ 0 ∧ t.2.2 ≠ nzIn then s
  else if t.1 * t.2.1 * t.2.2 ≠ P then s
  else
    let area := surfaceArea Lx Ly Lz t.1 t.2.1 t.2.2
    if area < s.minArea ∨ s.found = false then
      { nx := t.1, ny := t.2.1, nz := t.2.2, minArea := area, found := true }
    else s

/-- Candidate triples visited by the three nested loops of
`findDecomposition`: `nx_try` runs from 1 to `P`; `ny_try` from 1 while
`nx_try*ny_try <= P`; `nz_try` from 1 while `nx_try*ny_try*nz_try <= P`
(the loop conditions are monotone in the trip count, so the set of visited
triples is the filtered range), in ascending lexicographic order. -/
def fdTriples (P : ℕ) : List (ℕ × ℕ × ℕ) :=
  ((List.range P).map Nat.succ).flatMap fun a =>
    (((List.range P).map Nat.succ).filter fun b => a * b ≤ P).flatMap fun b =>
      (((List.range P).map Nat.succ).filter fun c => a * b * c ≤ P).map fun c =>
        (a, b, c)

/-- Embedding of `DomainDecomposition::findDecomposition`.  `found` starts
true exactly when all of `nx, ny, nz` are unconstrained (0); the initial
guess is `(1, 1, P)` and the initial minimum area is
`L.x*L.y*P + L.x*L.z + L.y*L.z`; then the nested scan updates the state for
every candidate triple. -/
def findDecomposition (Lx Ly Lz : ℚ) (P nxIn nyIn nzIn : ℕ) : FDState :=
  (fdTriples P).foldl (fdStep Lx Ly Lz P nxIn nyIn nzIn)
    { nx := 1, ny := 1, nz := P,
      minArea := Lx * Ly * (P : ℚ) + Lx * Lz + Ly * Lz,
      found := decide (nxIn = 0 ∧ nyIn = 0 ∧ nzIn = 0) }

/-- Outcome of the root-rank branch of the `DomainDecomposition`
constructor: it either completes with a grid (optionally after emitting the
"Unable to find a decomposition" diagnostic and falling back), or aborts.
The `fatal` constructor exists to express the abort the spec postulates;
the embedded code below never produces it. -/
inductive ConstructorOutcome where
  | ok (diagnostic : Bool) (grid : ℕ × ℕ × ℕ)
  | fatal
deriving DecidableEq, Repr

/-- Embedding of the root-rank branch of the `DomainDecomposition`
constructor (lines 91-107): call `findDecomposition` with the requested
dimensions; if it fails, print an error diagnostic, reset the request to
`(0,0,0)` and call `findDecomposition` again; in both cases store the
resulting grid and continue.  No exception is thrown on the failure path. -/
def constructorRoot (Lx Ly Lz : ℚ) (P nxIn nyIn nzIn : ℕ) : ConstructorOutcome :=
  let r1 := findDecomposition Lx Ly Lz P nxIn nyIn nzIn
  if r1.found then .ok false (r1.nx, r1.ny, r1.nz)
  else
    let r2 := findDecomposition Lx Ly Lz P 0 0 0
    .ok true (r2.nx, r2.ny, r2.nz)

/-- Modelled from the spec: `Index3D::operator()` is absent from src/;
per the spec, `grid_position(rank)` is a "row-major decode with x
fastest-varying", so the linear index of grid coordinate `(i, j, k)` is
`(k*ny + j)*nx + i`. -/
def idx3D (nx ny : ℕ) (i j k : ℕ) : ℕ :=
  (k * ny + j) * nx + i

/-- Modelled from the spec: `Index3D::getTriple` is absent from src/; it is
the inverse of `idx3D`, decoding a rank row-major with x fastest-varying. -/
def getTriple (nx ny : ℕ) (r : ℕ) : ℕ × ℕ × ℕ :=
  (r % nx, r / nx % ny, r / (nx * ny))

/-- Adjacency table `adj[6][3]` of `DomainDecomposition::getNeighborRank`. -/
def adjTable : ℕ → Int × Int × Int
  | 0 => (1, 0, 0)
  | 1 => (-1, 0, 0)
  | 2 => (0, 1, 0)
  | 3 => (0, -1, 0)
  | 4 => (0, 0, 1)
  | _ => (0, 0, -1)

/-- Boundary wrap of `getNeighborRank`: a coordinate that went negative is
raised by the extent, a coordinate that reached the extent is lowered by
it. -/
def wrapCoord (c : Int) (n : ℕ) : Int :=
  if c < 0 then c + n
  else if c = (n : Int) then c - n
  else c

/-- Embedding of `DomainDecomposition::getNeighborRank`: decode this rank's
grid position, offset it by the adjacency entry for `dir`, wrap each
coordinate across the grid boundaries, and re-encode. -/
def getNeighborRank (nx ny nz : ℕ) (rank dir : ℕ) : ℕ :=
  let p := getTriple nx ny rank
  let a := adjTable dir
  let i := wrapCoord ((p.1 : Int) + a.1) nx
  let j := wrapCoord ((p.2.1 : Int) + a.2.1) ny
  let k := wrapCoord ((p.2.2 : Int) + a.2.2) nz
  idx3D nx ny i.toNat j.toNat k.toNat

/-- Wrapped-modulo form of the neighbor coordinate, written from the
claim's words: offset the coordinate by the adjacency delta and reduce
modulo the axis extent. -/
def neighborRankSpec (nx ny nz : ℕ) (rank dir : ℕ) : ℕ :=
  let p := getTriple nx ny rank
  let a := adjTable dir
  idx3D nx ny
    ((((p.1 : Int) + a.1) % (nx : Int)).toNat)
    ((((p.2.1 : Int) + a.2.1) % (ny : Int)).toNat)
    ((((p.2.2 : Int) + a.2.2) % (nz : Int)).toNat)

/-- Opposite of each of the six neighbor directions: `+x <-> -x`,
`+y <-> -y`, `+z <-> -z`. -/
def oppositeDir : ℕ → ℕ
  | 0 => 1
  | 1 => 0
  | 2 => 3
  | 3 => 2
  | 4 => 5
  | _ => 4

/-! ### Convergence engine of IntegratorHPMCMonoGPU::update (src/unnamed/part_002)

The host driver in src/ initializes `reject` from `reject_out_of_cell`,
zeroes `reject_out`, and then loops: launch the narrow-phase /
depletant / convergence-check kernels, swap `reject`/`reject_out`, exit
when the condition word stays zero.  The kernels themselves are not under
src/, so the per-iteration map is modelled from the spec. -/

/-- Modelled from the spec: the narrow-phase kernel
(`gpu::hpmc_narrow_phase`, absent from src/) recomputes, for every
particle `i`,
`reject_out[i] = reject_out_of_cell[i] OR (overlap(i.trial, j.trial) for
any earlier-ordered neighbor j with reject[j] == false)`.
`oc` is the static seed `reject_out_of_cell`, `T i j` is the trial/trial
overlap predicate restricted to broad-phase neighbors, and `ord` gives
each particle's position in the sampled update order. -/
def rejectStep (n : ℕ) (oc : Fin n → Bool) (T : Fin n → Fin n → Bool)
    (ord : Fin n → ℕ) (r : Fin n → Bool) : Fin n → Bool :=
  fun i =>
    oc i || (List.finRange n).any fun j => decide (ord j < ord i) && !r j && T i j

/-- Value of the `reject` array after `k` convergence iterations of one
sweep: iteration 0 is the initialization `reject = reject_out_of_cell`
(host code at the top of the while-loop), and each following iteration
applies the modelled kernel map followed by the swap. -/
def rejectIter (n : ℕ) (oc : Fin n → Bool) (T : Fin n → Fin n → Bool)
    (ord : Fin n → ℕ) : ℕ → Fin n → Bool
  | 0 => oc
  | k + 1 => rejectStep n oc T ord (rejectIter n oc T ord k)

/-- Number of particles strictly earlier than `i` in the sampled update
order. -/
def earlierCount (n : ℕ) (ord : Fin n → ℕ) (i : Fin n) : ℕ :=
  (Finset.univ.filter fun j => ord j < ord i).card

/-- Exit test of the convergence loop: the k-th executed iteration is the
last one exactly when the condition word stays zero, i.e. the swap left
the reject array unchanged from the previous hypothesis. -/
def convergedAt (n : ℕ) (oc : Fin n → Bool) (T : Fin n → Fin n → Bool)
    (ord : Fin n → ℕ) (k : ℕ) : Prop :=
  1 ≤ k ∧ rejectIter n oc T ord k = rejectIter n oc T ord (k - 1)

instance (n : ℕ) (oc : Fin n → Bool) (T : Fin n → Fin n → Bool)
    (ord : Fin n → ℕ) (k : ℕ) : Decidable (convergedAt n oc T ord k) := by
  unfold convergedAt; infer_instance

/-! ### Minimum-image precheck of IntegratorHPMCMonoGPU::update -/

/-- Embedding of the entry of `IntegratorHPMCMonoGPU::update` (lines
728-745): with at least one local particle, if on any periodic axis of the
global box (the z axis only in three dimensions) the nearest plane
distance is at most twice the nominal interaction width, a fatal
`std::runtime_error` is raised; otherwise the `nselect` sweeps run.  The
payload of `.ok` is the number of sweeps executed, so an `.error` result
means no trial move was proposed or committed. -/
def updatePrecheck (N ndim : ℕ) (perX perY perZ : Bool) (npdX npdY npdZ : ℚ)
    (width : ℚ) (nselect : ℕ) : Except String ℕ :=
  if 0 < N then
    if (perX && decide (npdX ≤ width * 2)) ||
       (perY && decide (npdY ≤ width * 2)) ||
       (decide (ndim = 3) && perZ && decide (npdZ ≤ width * 2)) then
      .error "Simulation box too small for GPU accelerated HPMC execution - increase it so the minimum image convention works"
    else .ok nselect
  else .ok 0

/-! ### Depletant dispatch of IntegratorHPMCMonoGPU::update -/

/-- One depletant kernel launch recorded by the dispatch loop: the direct
(`ntrial == 0`) insertion kernel, or the two auxiliary-variable phases. -/
inductive DepletantKernel where
  | direct (it jt : ℕ)
  | phase1 (it jt : ℕ)
  | phase2 (it jt : ℕ)
deriving DecidableEq, Repr

/-- Embedding of the depletant dispatch loop (lines 1182-1398): for every
ordered type pair `itype <= jtype`, a pair with zero fugacity is skipped
(`continue`) before any kernel launch; otherwise the direct kernel
(`ntrial == 0`) or the two auxiliary phases are launched. -/
def depletantKernels (ntypes : ℕ) (fug : ℕ → ℕ → ℚ) (ntr : ℕ → ℕ → ℕ) :
    List DepletantKernel :=
  (List.range ntypes).flatMap fun it =>
    ((List.range ntypes).filter fun jt => it ≤ jt).flatMap fun jt =>
      if fug it jt = 0 then []
      else if ntr it jt = 0 then [.direct it jt]
      else [.phase1 it jt, .phase2 it jt]

/-- Effect of one convergence pass on the `deltaF_int` accumulator.  The
host code zeroes and lets the phase kernels write only the slice
`d_deltaF_int.data + depletant_idx(itype,jtype)*maxN` of an active pair
(`fugacity != 0 && ntrial != 0`); slices of skipped pairs are untouched.
The kernels' numeric output is abstracted as `w it jt p` (modelled from
the spec: the phase-1/phase-2 kernels are absent from src/). -/
def deltaFPass (fug : ℕ → ℕ → ℚ) (ntr : ℕ → ℕ → ℕ) (w : ℕ → ℕ → ℕ → ℤ)
    (F : ℕ → ℕ → ℕ → ℤ) : ℕ → ℕ → ℕ → ℤ :=
  fun it jt p => if fug it jt ≠ 0 ∧ ntr it jt ≠ 0 then w it jt p else F it jt p

/-- The `deltaF_int` accumulator after any sequence of passes (covering
all convergence iterations of all sweeps), starting from `F0`. -/
def deltaFRun (fug : ℕ → ℕ → ℚ) (ntr : ℕ → ℕ → ℕ)
    (writes : List (ℕ → ℕ → ℕ → ℤ)) (F0 : ℕ → ℕ → ℕ → ℤ) : ℕ → ℕ → ℕ → ℤ :=
  writes.foldl (fun F w => deltaFPass fug ntr w F) F0

/-! ### HarmonicBondForceCompute::computeForces (src/unnamed/part_000) -/

/-- Per-particle force/energy array (x, y, z, w = energy) and virial array
(component 0..5, particle index) of the bond force compute, zeroed by the
two memsets before the bond loop. -/
structure ForceState where
  force : ℕ → ℚ × ℚ × ℚ × ℚ
  virial : ℕ → ℕ → ℚ

/-- Loop body of `HarmonicBondForceCompute::computeForces` for one bond
`(a_tag, b_tag, type)`: look up the indices through `rtag`, take the
minimum-image separation, compute the force magnitude
`K*(r_0/r - 1)` and neutralize it when non-finite (in exact arithmetic
the libm result is non-finite precisely when `r = 0`), compute the energy
`0.5*0.5*K*(r_0 - r)^2` and the six virial components, and accumulate them
for particle `b` then particle `a`.  The libm `sqrt` is passed in as
`sqrtFn`. -/
def bondStep (sqrtFn : ℚ → ℚ) (K r0 : ℕ → ℚ) (rtag : ℕ → ℕ)
    (pos : ℕ → ℚ × ℚ × ℚ) (Lx Ly Lz : ℚ) (s : ForceState)
    (bond : ℕ × ℕ × ℕ) : ForceState :=
  let idxa := rtag bond.1
  let idxb := rtag bond.2.1
  let dx0 := (pos idxb).1 - (pos idxa).1
  let dy0 := (pos idxb).2.1 - (pos idxa).2.1
  let dz0 := (pos idxb).2.2 - (pos idxa).2.2
  let dx := if dx0 ≥ Lx / 2 then dx0 - Lx else if dx0 < -(Lx / 2) then dx0 + Lx else dx0
  let dy := if dy0 ≥ Ly / 2 then dy0 - Ly else if dy0 < -(Ly / 2) then dy0 + Ly else dy0
  let dz := if dz0 ≥ Lz / 2 then dz0 - Lz else if dz0 < -(Lz / 2) then dz0 + Lz else dz0
  let rsq := dx * dx + dy * dy + dz * dz
  let r := sqrtFn rsq
  let fm0 := K bond.2.2 * (r0 bond.2.2 / r - 1)
  let fm := if r = 0 then 0 else fm0
  let eng := (1 / 2 : ℚ) * (1 / 2) * K bond.2.2 * (r0 bond.2.2 - r) * (r0 bond.2.2 - r)
  let fm2 := (1 / 2 : ℚ) * fm
  let vir : ℕ → ℚ := fun c =>
    if c = 0 then dx * dx * fm2
    else if c = 1 then dx * dy * fm2
    else if c = 2 then dx * dz * fm2
    else if c = 3 then dy * dy * fm2
    else if c = 4 then dy * dz * fm2
    else dz * dz * fm2
  let f1 : ℕ → ℚ × ℚ × ℚ × ℚ := fun idx =>
    if idx = idxb then
      let o := s.force idx
      (o.1 + fm * dx, o.2.1 + fm * dy, o.2.2.1 + fm * dz, o.2.2.2 + eng)
    else s.force idx
  let f2 : ℕ → ℚ × ℚ × ℚ × ℚ := fun idx =>
    if idx = idxa then
      let o := f1 idx
      (o.1 - fm * dx, o.2.1 - fm * dy, o.2.2.1 - fm * dz, o.2.2.2 + eng)
    else f1 idx
  let v1 : ℕ → ℕ → ℚ := fun c idx =>
    if idx = idxb then s.virial c idx + vir c else s.virial c idx
  let v2 : ℕ → ℕ → ℚ := fun c idx =>
    if idx = idxa then v1 c idx + vir c else v1 c idx
  { force := f2, virial := v2 }

/-- Embedding of `HarmonicBondForceCompute::computeForces`: zero the force
and virial arrays, then fold the bond loop over the bond list.  The
computation is total: no bond can abort it. -/
def computeForces (sqrtFn : ℚ → ℚ) (K r0 : ℕ → ℚ) (rtag : ℕ → ℕ)
    (pos : ℕ → ℚ × ℚ × ℚ) (Lx Ly Lz : ℚ) (bonds : List (ℕ × ℕ × ℕ)) :
    ForceState :=
  bonds.foldl (bondStep sqrtFn K r0 rtag pos Lx Ly Lz)
    { force := fun _ => (0, 0, 0, 0), virial := fun _ _ => 0 }

/-! ### Theorems: C10 (ParticleFilterIntersection) -/

theorem mem_of_mem_setIntersection :
    ∀ {xs ys : List ℕ} {t : ℕ}, t ∈ setIntersection xs ys → t ∈ xs ∧ t ∈ ys := by
  intro xs ys
  induction xs, ys using setIntersection.induct with
  | case1 ys => intro t h; simp [setIntersection] at h
  | case2 x xs => intro t h; simp [setIntersection] at h
  | case3 x xs y ys hlt ih =>
    intro t h
    rw [setIntersection, if_pos hlt] at h
    rcases ih h with ⟨h1, h2⟩
    exact ⟨List.mem_cons_of_mem _ h1, h2⟩
  | case4 x xs y ys hlt hgt ih =>
    intro t h
    rw [setIntersection, if_neg hlt, if_pos hgt] at h
    rcases ih h with ⟨h1, h2⟩
    exact ⟨h1, List.mem_cons_of_mem _ h2⟩
  | case5 x xs y ys hlt hgt ih =>
    intro t h
    rw [setIntersection, if_neg hlt, if_neg hgt] at h
    rcases List.mem_cons.mp h with h | h
    · have hxy : x = y := le_antisymm (le_of_not_lt hgt) (le_of_not_lt hlt)
      constructor
      · rw [h]; exact List.mem_cons_self _ _
      · rw [h, hxy]; exact List.mem_cons_self _ _
    · rcases ih h with ⟨h1, h2⟩
      exact ⟨List.mem_cons_of_mem _ h1, List.mem_cons_of_mem _ h2⟩

theorem mem_setIntersection_of_mem :
    ∀ {xs ys : List ℕ}, xs.Sorted (· ≤ ·) → ys.Sorted (· ≤ ·) →
      ∀ {t : ℕ}, t ∈ xs → t ∈ ys → t ∈ setIntersection xs ys := by
  intro xs ys
  induction xs, ys using setIntersection.induct with
  | case1 ys => intro _ _ t ht; simp at ht
  | case2 x xs => intro _ _ t _ ht; simp at ht
  | case3 x xs y ys hlt ih =>
    intro hx hy t htx hty
    rw [setIntersection, if_pos hlt]
    have hyt : y ≤ t := by
      rcases List.mem_cons.mp hty with h | h
      · omega
      · exact (List.sorted_cons.mp hy).1 _ h
    have htx' : t ∈ xs := by
      rcases List.mem_cons.mp htx with h | h
      · omega
      · exact h
    exact ih (List.sorted_cons.mp hx).2 hy htx' hty
  | case4 x xs y ys hlt hgt ih =>
    intro hx hy t htx hty
    rw [setIntersection, if_neg hlt, if_pos hgt]
    have hxt : x ≤ t := by
      rcases List.mem_cons.mp htx with h | h
      · omega
      · exact (List.sorted_cons.mp hx).1 _ h
    have hty' : t ∈ ys := by
      rcases List.mem_cons.mp hty with h | h
      · omega
      · exact h
    exact ih hx (List.sorted_cons.mp hy).2 htx hty'
  | case5 x xs y ys hlt hgt ih =>
    intro hx hy t htx hty
    rw [setIntersection, if_neg hlt, if_neg hgt]
    rcases List.mem_cons.mp htx with h | h
    · rw [h]; exact List.mem_cons_self _ _
    · rcases List.mem_cons.mp hty with h2 | h2
      · have hxy : x = y := le_antisymm (le_of_not_lt hgt) (le_of_not_lt hlt)
        rw [h2, ← hxy]; exact List.mem_cons_self _ _
      · exact List.mem_cons_of_mem _
          (ih (List.sorted_cons.mp hx).2 (List.sorted_cons.mp hy).2 h h2)

theorem sorted_setIntersection :
    ∀ {xs ys : List ℕ}, xs.Sorted (· ≤ ·) →
      (setIntersection xs ys).Sorted (· ≤ ·) := by
  intro xs ys
  induction xs, ys using setIntersection.induct with
  | case1 ys => intro _; simp [setIntersection]
  | case2 x xs => intro _; simp [setIntersection]
  | case3 x xs y ys hlt ih =>
    intro hx
    rw [setIntersection, if_pos hlt]
    exact ih (List.sorted_cons.mp hx).2
  | case4 x xs y ys hlt hgt ih =>
    intro hx
    rw [setIntersection, if_neg hlt, if_pos hgt]
    exact ih hx
  | case5 x xs y ys hlt hgt ih =>
    intro hx
    rw [setIntersection, if_neg hlt, if_neg hgt]
    refine List.sorted_cons.mpr ⟨?_, ih (List.sorted_cons.mp hx).2⟩
    intro b hb
    exact (List.sorted_cons.mp hx).1 _ (mem_of_mem_setIntersection hb).1

theorem nodup_setIntersection :
    ∀ {xs ys : List ℕ}, xs.Nodup → (setIntersection xs ys).Nodup := by
  intro xs ys
  induction xs, ys using setIntersection.induct with
  | case1 ys => intro _; simp [setIntersection]
  | case2 x xs => intro _; simp [setIntersection]
  | case3 x xs y ys hlt ih =>
    intro hx
    rw [setIntersection, if_pos hlt]
    exact ih (List.nodup_cons.mp hx).2
  | case4 x xs y ys hlt hgt ih =>
    intro hx
    rw [setIntersection, if_neg hlt, if_pos hgt]
    exact ih hx
  | case5 x xs y ys hlt hgt ih =>
    intro hx
    rw [setIntersection, if_neg hlt, if_neg hgt]
    refine List.nodup_cons.mpr ⟨?_, ih (List.nodup_cons.mp hx).2⟩
    intro hmem
    exact (List.nodup_cons.mp hx).1 (mem_of_mem_setIntersection hmem).1

/-- C10: `ParticleFilterIntersection::getSelectedTags` returns a sorted
list whose members are exactly the tags occurring in both component
filters' results; when the component results are duplicate-free, every
such tag occurs exactly once, and no tag absent from either component
occurs at all. -/
theorem C10_intersection_getSelectedTags {α : Type} (f g : α → List ℕ) (sd : α) :
    (getSelectedTags f g sd).Sorted (· ≤ ·) ∧
    (∀ t, t ∈ getSelectedTags f g sd ↔ t ∈ f sd ∧ t ∈ g sd) ∧
    ((f sd).Nodup → (g sd).Nodup →
      ∀ t, t ∈ f sd → t ∈ g sd → (getSelectedTags f g sd).count t = 1) := by
  have hsx : (List.insertionSort (· ≤ ·) (f sd)).Sorted (· ≤ ·) :=
    List.sorted_insertionSort _ _
  have hsy : (List.insertionSort (· ≤ ·) (g sd)).Sorted (· ≤ ·) :=
    List.sorted_insertionSort _ _
  have hpermx := List.perm_insertionSort (· ≤ ·) (f sd)
  have hpermy := List.perm_insertionSort (· ≤ ·) (g sd)
  have hmem : ∀ t, t ∈ getSelectedTags f g sd ↔ t ∈ f sd ∧ t ∈ g sd := by
    intro t
    constructor
    · intro h
      rcases mem_of_mem_setIntersection h with ⟨h1, h2⟩
      exact ⟨hpermx.mem_iff.mp h1, hpermy.mem_iff.mp h2⟩
    · rintro ⟨h1, h2⟩
      exact mem_setIntersection_of_mem hsx hsy
        (hpermx.mem_iff.mpr h1) (hpermy.mem_iff.mpr h2)
  refine ⟨sorted_setIntersection hsx, hmem, ?_⟩
  intro hnf _ t htf htg
  have hnd : (getSelectedTags f g sd).Nodup :=
    nodup_setIntersection (hpermx.nodup_iff.mpr hnf)
  exact List.count_eq_one_of_mem hnd ((hmem t).mpr ⟨htf, htg⟩)

/-! ### Theorems: C9 (UpdateOrderGPU frame and effect) -/

/-- C9: `UpdateOrderGPU::shuffle` stores one RNG bit keyed by
(seed, timestep, select) in the reversal flag and changes nothing else;
after a size-changing `resize(N)` with `N` nonzero, the forward order at
`i` is `i`, the reverse order at `i` is `N-1-i`, the flag is clear, and
`operator[]` returns `i` with the flag unset and `N-1-i` after a shuffle
that sets it. -/
theorem C9_update_order_frame (rngBit : ℕ → ℕ → ℕ → Bool) (s : UpdateOrderGPU)
    (timestep sel N i : ℕ) :
    ((s.shuffle rngBit timestep sel).m_update_order = s.m_update_order ∧
     (s.shuffle rngBit timestep sel).m_reverse_update_order = s.m_reverse_update_order ∧
     (s.shuffle rngBit timestep sel).m_seed = s.m_seed ∧
     (s.shuffle rngBit timestep sel).m_is_reversed = rngBit s.m_seed timestep sel) ∧
    (N ≠ 0 → N ≠ s.m_update_order.length → i < N →
      (s.resize N).m_update_order.getD i 0 = i ∧
      (s.resize N).m_reverse_update_order.getD i 0 = N - 1 - i ∧
      (s.resize N).m_is_reversed = false ∧
      (s.resize N).opGet i = i ∧
      ((s.resize N).shuffle rngBit timestep sel).opGet i =
        (if rngBit s.m_seed timestep sel then N - 1 - i else i)) := by
  refine ⟨⟨rfl, rfl, rfl, rfl⟩, ?_⟩
  intro hN hlen hi
  have hcond : ¬(N = 0 ∨ N = s.m_update_order.length) := by tauto
  have hres : s.resize N =
      { s with
        m_update_order := List.range N
        m_reverse_update_order := (List.range N).map (fun j => N - j - 1)
        m_is_reversed := false } := by
    unfold UpdateOrderGPU.resize
    rw [if_neg hcond]
  have h1 : (List.range N).getD i 0 = i := by
    rw [List.getD_eq_getElem _ _ (by simpa)]
    simp
  have h2 : ((List.range N).map (fun j => N - j - 1)).getD i 0 = N - 1 - i := by
    rw [List.getD_eq_getElem _ _ (by simpa)]
    simp
    omega
  rw [hres]
  refine ⟨h1, h2, rfl, ?_, ?_⟩
  · show (List.range N).getD i 0 = i
    exact h1
  · show (if rngBit s.m_seed timestep sel then
        (List.range N).map (fun j => N - j - 1) else List.range N).getD i 0 =
      (if rngBit s.m_seed timestep sel then N - 1 - i else i)
    by_cases hb : rngBit s.m_seed timestep sel = true
    · rw [if_pos hb, if_pos hb]
      exact h2
    · rw [if_neg hb, if_neg hb]
      exact h1

theorem C9_update_order_frame_witness :
    ((⟨7, false, [], []⟩ : UpdateOrderGPU).resize 3).opGet 1 = 1 :=
  ((C9_update_order_frame (fun _ _ _ => true) ⟨7, false, [], []⟩ 0 0 3 1).2
    (by decide) (by decide) (by decide)).2.2.2.1

/-! ### Theorems: C6 (minimum-image fatal precheck) -/

/-- C6: with at least one local particle, a periodic axis of the global
box whose nearest-plane distance is smaller than twice the nominal
interaction width (z counting only in three dimensions) makes
`IntegratorHPMCMonoGPU::update` raise the fatal configuration error before
any sweep runs: the result is an error and no trial move is proposed or
committed. -/
theorem C6_min_image_fatal (N ndim : ℕ) (perX perY perZ : Bool)
    (npdX npdY npdZ width : ℚ) (nselect : ℕ) (hN : 0 < N)
    (hsmall : (perX = true ∧ npdX < width * 2) ∨
              (perY = true ∧ npdY < width * 2) ∨
              (ndim = 3 ∧ perZ = true ∧ npdZ < width * 2)) :
    ∃ msg, updatePrecheck N ndim perX perY perZ npdX npdY npdZ width nselect =
      .error msg := by
  have hcond : ((perX && decide (npdX ≤ width * 2)) ||
      (perY && decide (npdY ≤ width * 2)) ||
      (decide (ndim = 3) && perZ && decide (npdZ ≤ width * 2))) = true := by
    simp only [Bool.or_eq_true, Bool.and_eq_true, decide_eq_true_eq]
    rcases hsmall with ⟨h1, h2⟩ | ⟨h1, h2⟩ | ⟨h1, h2, h3⟩
    · exact Or.inl (Or.inl ⟨h1, le_of_lt h2⟩)
    · exact Or.inl (Or.inr ⟨h1, le_of_lt h2⟩)
    · exact Or.inr ⟨⟨h1, h2⟩, le_of_lt h3⟩
  unfold updatePrecheck
  rw [if_pos hN, if_pos hcond]
  exact ⟨_, rfl⟩

theorem C6_min_image_fatal_witness :
    ∃ msg, updatePrecheck 1 3 true true true 1 10 10 1 5 = .error msg :=
  C6_min_image_fatal 1 3 true true true 1 10 10 1 5 (by decide)
    (Or.inl ⟨rfl, by norm_num⟩)

/-! ### Theorems: C8 (zero fugacity skips depletants) -/

theorem deltaFRun_untouched (fug : ℕ → ℕ → ℚ) (ntr : ℕ → ℕ → ℕ)
    (it jt : ℕ) (h : fug it jt = 0) :
    ∀ (writes : List (ℕ → ℕ → ℕ → ℤ)) (F0 : ℕ → ℕ → ℕ → ℤ) (p : ℕ),
      deltaFRun fug ntr writes F0 it jt p = F0 it jt p := by
  intro writes
  induction writes with
  | nil => intro F0 p; rfl
  | cons w ws ih =>
    intro F0 p
    show deltaFRun fug ntr ws (deltaFPass fug ntr w F0) it jt p = _
    rw [ih]
    unfold deltaFPass
    rw [if_neg (by tauto)]

/-- C8: a type pair with zero fugacity is skipped by the depletant
dispatch loop — no direct-insertion or auxiliary phase kernel is ever
launched for it — and consequently its slice of the `deltaF_int`
accumulator, starting from the zeroed array, stays identically zero for
all particles across any number of passes. -/
theorem C8_zero_fugacity_skips (ntypes : ℕ) (fug : ℕ → ℕ → ℚ)
    (ntr : ℕ → ℕ → ℕ) (it jt : ℕ) (h : fug it jt = 0) :
    (∀ k ∈ depletantKernels ntypes fug ntr,
      k ≠ .direct it jt ∧ k ≠ .phase1 it jt ∧ k ≠ .phase2 it jt) ∧
    (∀ (writes : List (ℕ → ℕ → ℕ → ℤ)) (p : ℕ),
      deltaFRun fug ntr writes (fun _ _ _ => 0) it jt p = 0) := by
  constructor
  · intro k hk
    simp only [depletantKernels, List.mem_flatMap, List.mem_filter,
      List.mem_range] at hk
    obtain ⟨a, ha, b, hb, hkm⟩ := hk
    by_cases hf : fug a b = 0
    · rw [if_pos hf] at hkm
      simp at hkm
    · rw [if_neg hf] at hkm
      by_cases hn : ntr a b = 0
      · rw [if_pos hn] at hkm
        simp only [List.mem_singleton] at hkm
        subst hkm
        refine ⟨?_, fun hc => DepletantKernel.noConfusion hc,
          fun hc => DepletantKernel.noConfusion hc⟩
        intro hc
        injection hc with e1 e2
        subst e1; subst e2
        exact hf h
      · rw [if_neg hn] at hkm
        simp only [List.mem_cons, List.not_mem_nil, or_false] at hkm
        rcases hkm with hkm | hkm <;> subst hkm
        · refine ⟨fun hc => DepletantKernel.noConfusion hc, ?_,
            fun hc => DepletantKernel.noConfusion hc⟩
          intro hc
          injection hc with e1 e2
          subst e1; subst e2
          exact hf h
        · refine ⟨fun hc => DepletantKernel.noConfusion hc,
            fun hc => DepletantKernel.noConfusion hc, ?_⟩
          intro hc
          injection hc with e1 e2
          subst e1; subst e2
          exact hf h
  · intro writes p
    exact deltaFRun_untouched fug ntr it jt h writes _ p

theorem C8_zero_fugacity_skips_witness :
    deltaFRun (fun _ _ => 0) (fun _ _ => 1) [fun _ _ _ => 5]
      (fun _ _ _ => 0) 0 1 3 = 0 :=
  (C8_zero_fugacity_skips 2 (fun _ _ => 0) (fun _ _ => 1) 0 1 rfl).2
    [fun _ _ _ => 5] 3

theorem C10_intersection_getSelectedTags_witness :
    (getSelectedTags (fun _ : Unit => [5, 1, 3, 9]) (fun _ => [9, 2, 5, 7]) ()).count 5 = 1 :=
  (C10_intersection_getSelectedTags (fun _ : Unit => [5, 1, 3, 9])
    (fun _ => [9, 2, 5, 7]) ()).2.2 (by decide) (by decide) 5 (by decide) (by decide)

/-! ### Theorems: C7 (non-finite bond force neutralization) -/

/-- Helper: processing a bond between coincident particles (`r = 0`, the
non-finite force-magnitude case) leaves the force components and the
virial unchanged and adds only the finite energy term to each endpoint. -/
theorem bondStep_coincident (sqrtFn : ℚ → ℚ) (K r0 : ℕ → ℚ)
    (rtag : ℕ → ℕ) (pos : ℕ → ℚ × ℚ × ℚ) (Lx Ly Lz : ℚ) (s : ForceState)
    (bond : ℕ × ℕ × ℕ) (hsqrt : sqrtFn 0 = 0)
    (hLx : 0 < Lx) (hLy : 0 < Ly) (hLz : 0 < Lz)
    (hpos : pos (rtag bond.1) = pos (rtag bond.2.1))
    (hne : rtag bond.1 ≠ rtag bond.2.1) :
    bondStep sqrtFn K r0 rtag pos Lx Ly Lz s bond =
      { force := fun idx =>
          if idx = rtag bond.1 then
            ((s.force idx).1, (s.force idx).2.1, (s.force idx).2.2.1,
              (s.force idx).2.2.2 +
                1 / 2 * (1 / 2) * K bond.2.2 * r0 bond.2.2 * r0 bond.2.2)
          else if idx = rtag bond.2.1 then
            ((s.force idx).1, (s.force idx).2.1, (s.force idx).2.2.1,
              (s.force idx).2.2.2 +
                1 / 2 * (1 / 2) * K bond.2.2 * r0 bond.2.2 * r0 bond.2.2)
          else s.force idx,
        virial := fun c idx => s.virial c idx } := by
  have hx1 : ¬((0 : ℚ) ≥ Lx / 2) := by rw [not_le]; positivity
  have hy1 : ¬((0 : ℚ) ≥ Ly / 2) := by rw [not_le]; positivity
  have hz1 : ¬((0 : ℚ) ≥ Lz / 2) := by rw [not_le]; positivity
  have hx2 : ¬((0 : ℚ) < -(Lx / 2)) := by
    rw [not_lt, neg_nonpos]
    positivity
  have hy2 : ¬((0 : ℚ) < -(Ly / 2)) := by
    rw [not_lt, neg_nonpos]
    positivity
  have hz2 : ¬((0 : ℚ) < -(Lz / 2)) := by
    rw [not_lt, neg_nonpos]
    positivity
  unfold bondStep
  simp only [hpos, sub_self, hx1, hy1, hz1, hx2, hy2, hz2, if_false,
    mul_zero, zero_mul, add_zero, zero_add, hsqrt, if_pos rfl, sub_zero,
    ite_self]
  congr 1
  funext idx
  by_cases hA : idx = rtag bond.1
  · have hB : ¬(idx = rtag bond.2.1) := by rw [hA]; exact hne
    rw [if_pos hA, if_pos hA, if_neg hB]
  · rw [if_neg hA, if_neg hA]

/-- C7 counterexample: for a bond between coincident particles
(`K = 1`, `r_0 = 1`) the force magnitude is non-finite and is zeroed, but
the claim that the pair is neutralized to a zero energy contribution is
false: the energy `0.5*0.5*K*(r_0 - r)^2 = 1/4` is still added to the
endpoints. -/
theorem C7_zero_contribution_cex :
    ((computeForces Rat.sqrt (fun _ => 1) (fun _ => 1) (fun t => t)
        (fun _ => (0, 0, 0)) 10 10 10 [(0, 1, 0)]).force 0).2.2.2 = 1 / 4 ∧
    ¬((1 / 4 : ℚ) = 0) := by
  have hc := bondStep_coincident Rat.sqrt (fun _ => 1) (fun _ => 1)
    (fun t => t) (fun _ => (0, 0, 0)) 10 10 10
    ⟨fun _ => (0, 0, 0, 0), fun _ _ => 0⟩ (0, 1, 0) rfl
    (by norm_num) (by norm_num) (by norm_num) rfl (by decide)
  constructor
  · show ((bondStep Rat.sqrt (fun _ => 1) (fun _ => 1) (fun t => t)
        (fun _ => (0, 0, 0)) 10 10 10
        ⟨fun _ => (0, 0, 0, 0), fun _ _ => 0⟩ (0, 1, 0)).force 0).2.2.2 = 1 / 4
    rw [hc]
    norm_num
  · norm_num

/-- C7 amended: a bond pair whose computed force magnitude is non-finite
(coincident particles, `r = 0`) is neutralized only in its force and
virial — both endpoints receive zero force and zero virial from it — while
its energy `0.5*0.5*K*r_0^2`, which is finite, is still added to both
endpoints; all remaining bonds are processed normally and the computation
never aborts (the fold is total). -/
theorem C7_nonfinite_pair_amended (sqrtFn : ℚ → ℚ) (K r0 : ℕ → ℚ)
    (rtag : ℕ → ℕ) (pos : ℕ → ℚ × ℚ × ℚ) (Lx Ly Lz : ℚ) (s : ForceState)
    (bond : ℕ × ℕ × ℕ) (hsqrt : sqrtFn 0 = 0)
    (hLx : 0 < Lx) (hLy : 0 < Ly) (hLz : 0 < Lz)
    (hpos : pos (rtag bond.1) = pos (rtag bond.2.1))
    (hne : rtag bond.1 ≠ rtag bond.2.1) :
    (∀ idx,
      ((bondStep sqrtFn K r0 rtag pos Lx Ly Lz s bond).force idx).1 = (s.force idx).1 ∧
      ((bondStep sqrtFn K r0 rtag pos Lx Ly Lz s bond).force idx).2.1 = (s.force idx).2.1 ∧
      ((bondStep sqrtFn K r0 rtag pos Lx Ly Lz s bond).force idx).2.2.1 = (s.force idx).2.2.1) ∧
    (∀ c idx,
      (bondStep sqrtFn K r0 rtag pos Lx Ly Lz s bond).virial c idx = s.virial c idx) ∧
    (∀ idx,
      ((bondStep sqrtFn K r0 rtag pos Lx Ly Lz s bond).force idx).2.2.2 =
        (s.force idx).2.2.2 +
          (if idx = rtag bond.1 ∨ idx = rtag bond.2.1 then
            1 / 2 * (1 / 2) * K bond.2.2 * r0 bond.2.2 * r0 bond.2.2 else 0)) := by
  rw [bondStep_coincident sqrtFn K r0 rtag pos Lx Ly Lz s bond hsqrt
    hLx hLy hLz hpos hne]
  refine ⟨?_, fun c idx => rfl, ?_⟩
  · intro idx
    by_cases hA : idx = rtag bond.1
    · simp [hA, hne]
    · by_cases hB : idx = rtag bond.2.1 <;> simp [hA, hB]
  · intro idx
    by_cases hA : idx = rtag bond.1
    · simp [hA]
    · by_cases hB : idx = rtag bond.2.1 <;> simp [hA, hB]

theorem C7_nonfinite_pair_amended_witness :
    ((bondStep Rat.sqrt (fun _ => 1) (fun _ => 1) (fun t => t)
        (fun _ => (0, 0, 0)) 10 10 10
        ⟨fun _ => (0, 0, 0, 0), fun _ _ => 0⟩ (0, 1, 0)).force 0).2.2.2 =
      (0 : ℚ) + (if (0 : ℕ) = 0 ∨ (0 : ℕ) = 1 then
        1 / 2 * (1 / 2) * 1 * 1 * 1 else 0) :=
  (C7_nonfinite_pair_amended Rat.sqrt (fun _ => 1) (fun _ => 1) (fun t => t)
    (fun _ => (0, 0, 0)) 10 10 10 ⟨fun _ => (0, 0, 0, 0), fun _ _ => 0⟩
    (0, 1, 0) rfl (by norm_num) (by norm_num) (by norm_num) rfl
    (by decide)).2.2 0

/-! ### Theorems: C3 and C5 (findDecomposition) -/

/-- Invariant carried through the unconstrained scan: a decomposition has
been recorded, its grid factors the processor count, and the running
minimum equals its surface area. -/
def FDInv (Lx Ly Lz : ℚ) (P : ℕ) (s : FDState) : Prop :=
  s.found = true ∧ s.nx * s.ny * s.nz = P ∧
  s.minArea = surfaceArea Lx Ly Lz s.nx s.ny s.nz

theorem fdStep_unconstrained (Lx Ly Lz : ℚ) (P : ℕ) (s : FDState)
    (t : ℕ × ℕ × ℕ) :
    fdStep Lx Ly Lz P 0 0 0 s t =
      if t.1 * t.2.1 * t.2.2 ≠ P then s
      else if surfaceArea Lx Ly Lz t.1 t.2.1 t.2.2 < s.minArea ∨ s.found = false then
        { nx := t.1, ny := t.2.1, nz := t.2.2,
          minArea := surfaceArea Lx Ly Lz t.1 t.2.1 t.2.2, found := true }
      else s := by
  unfold fdStep
  simp

theorem fd_foldl_unconstrained (Lx Ly Lz : ℚ) (P : ℕ) :
    ∀ (l : List (ℕ × ℕ × ℕ)) (s : FDState), FDInv Lx Ly Lz P s →
      FDInv Lx Ly Lz P (l.foldl (fdStep Lx Ly Lz P 0 0 0) s) ∧
      (l.foldl (fdStep Lx Ly Lz P 0 0 0) s).minArea ≤ s.minArea ∧
      (∀ t ∈ l, t.1 * t.2.1 * t.2.2 = P →
        (l.foldl (fdStep Lx Ly Lz P 0 0 0) s).minArea ≤
          surfaceArea Lx Ly Lz t.1 t.2.1 t.2.2) := by
  intro l
  induction l with
  | nil =>
    intro s hs
    exact ⟨hs, le_refl _, by simp⟩
  | cons t l ih =>
    intro s hs
    rw [List.foldl_cons, fdStep_unconstrained]
    by_cases hprod : t.1 * t.2.1 * t.2.2 ≠ P
    · rw [if_pos hprod]
      rcases ih s hs with ⟨h1, h2, h3⟩
      refine ⟨h1, h2, ?_⟩
      intro u hu hup
      rcases List.mem_cons.mp hu with hu | hu
      · exact absurd (hu ▸ hup) hprod
      · exact h3 u hu hup
    · rw [if_neg hprod]
      push_neg at hprod
      by_cases hlt : surfaceArea Lx Ly Lz t.1 t.2.1 t.2.2 < s.minArea ∨
          s.found = false
      · rw [if_pos hlt]
        have harea : surfaceArea Lx Ly Lz t.1 t.2.1 t.2.2 < s.minArea := by
          rcases hlt with h | h
          · exact h
          · rw [hs.1] at h; cases h
        rcases ih ⟨t.1, t.2.1, t.2.2, surfaceArea Lx Ly Lz t.1 t.2.1 t.2.2, true⟩
          ⟨rfl, hprod, rfl⟩ with ⟨h1, h2, h3⟩
        refine ⟨h1, le_trans h2 (le_of_lt harea), ?_⟩
        intro u hu hup
        rcases List.mem_cons.mp hu with hu | hu
        · rw [hu]
          exact h2
        · exact h3 u hu hup
      · rw [if_neg hlt]
        rcases ih s hs with ⟨h1, h2, h3⟩
        refine ⟨h1, h2, ?_⟩
        intro u hu hup
        rcases List.mem_cons.mp hu with hu | hu
        · rw [hu]
          refine le_trans h2 ?_
          rw [not_or] at hlt
          exact not_lt.mp (hu ▸ hlt.1)
        · exact h3 u hu hup

theorem mem_succ_range {P x : ℕ} :
    x ∈ (List.range P).map Nat.succ ↔ 1 ≤ x ∧ x ≤ P := by
  simp only [List.mem_map, List.mem_range]
  constructor
  · rintro ⟨k, hk, rfl⟩
    omega
  · rintro ⟨h1, h2⟩
    exact ⟨x - 1, by omega, by omega⟩

theorem mem_fdTriples {P a b c : ℕ} (ha : 0 < a) (hb : 0 < b) (hc : 0 < c)
    (habc : a * b * c = P) : (a, b, c) ∈ fdTriples P := by
  have hP : 0 < P := by rw [← habc]; positivity
  have hdvd_a : a ≤ P := Nat.le_of_dvd hP ⟨b * c, by rw [← habc]; ring⟩
  have hdvd_b : b ≤ P := Nat.le_of_dvd hP ⟨a * c, by rw [← habc]; ring⟩
  have hdvd_c : c ≤ P := Nat.le_of_dvd hP ⟨a * b, by rw [← habc]; ring⟩
  have hdvd_ab : a * b ≤ P := Nat.le_of_dvd hP ⟨c, by rw [← habc]⟩
  unfold fdTriples
  rw [List.mem_flatMap]
  refine ⟨a, mem_succ_range.mpr ⟨ha, hdvd_a⟩, ?_⟩
  rw [List.mem_flatMap]
  refine ⟨b, List.mem_filter.mpr ⟨mem_succ_range.mpr ⟨hb, hdvd_b⟩, by
    simpa using hdvd_ab⟩, ?_⟩
  rw [List.mem_map]
  exact ⟨c, List.mem_filter.mpr ⟨mem_succ_range.mpr ⟨hc, hdvd_c⟩, by
    simpa using le_of_eq habc⟩, rfl⟩

/-- C3: with all three dimensions unconstrained, `findDecomposition`
succeeds, returns a factorization of the processor count, and its
interface area is no larger than that of every factorization; in
particular `P = 8` with `L = (2,2,2)` yields the grid `(2,2,2)`. -/
theorem C3_find_decomposition_minimal (Lx Ly Lz : ℚ) (P : ℕ)
    (hLx : 0 < Lx) (hLy : 0 < Ly) (hLz : 0 < Lz) (hP : 0 < P) :
    ((findDecomposition Lx Ly Lz P 0 0 0).found = true ∧
     (findDecomposition Lx Ly Lz P 0 0 0).nx *
       (findDecomposition Lx Ly Lz P 0 0 0).ny *
       (findDecomposition Lx Ly Lz P 0 0 0).nz = P ∧
     (∀ a b c : ℕ, 0 < a → 0 < b → 0 < c → a * b * c = P →
       surfaceArea Lx Ly Lz (findDecomposition Lx Ly Lz P 0 0 0).nx
           (findDecomposition Lx Ly Lz P 0 0 0).ny
           (findDecomposition Lx Ly Lz P 0 0 0).nz ≤
         surfaceArea Lx Ly Lz a b c)) ∧
    ((findDecomposition 2 2 2 8 0 0 0).nx = 2 ∧
     (findDecomposition 2 2 2 8 0 0 0).ny = 2 ∧
     (findDecomposition 2 2 2 8 0 0 0).nz = 2) := by
  have hgen : ∀ (Lx Ly Lz : ℚ) (P : ℕ), 0 < P →
      FDInv Lx Ly Lz P (findDecomposition Lx Ly Lz P 0 0 0) ∧
      (∀ a b c : ℕ, 0 < a → 0 < b → 0 < c → a * b * c = P →
        (findDecomposition Lx Ly Lz P 0 0 0).minArea ≤
          surfaceArea Lx Ly Lz a b c) := by
    intro Lx Ly Lz P hP
    have hinit : FDInv Lx Ly Lz P
        { nx := 1, ny := 1, nz := P,
          minArea := Lx * Ly * (P : ℚ) + Lx * Lz + Ly * Lz,
          found := decide (0 = 0 ∧ 0 = 0 ∧ 0 = 0) } := by
      refine ⟨rfl, by simp, ?_⟩
      show Lx * Ly * (P : ℚ) + Lx * Lz + Ly * Lz =
        surfaceArea Lx Ly Lz 1 1 P
      unfold surfaceArea
      push_cast
      ring
    rcases fd_foldl_unconstrained Lx Ly Lz P (fdTriples P) _ hinit with
      ⟨h1, _, h3⟩
    refine ⟨h1, ?_⟩
    intro a b c ha hb hc habc
    exact h3 (a, b, c) (mem_fdTriples ha hb hc habc) habc
  have hmain := hgen Lx Ly Lz P hP
  have hconc := hgen 2 2 2 8 (by norm_num)
  refine ⟨⟨hmain.1.1, hmain.1.2.1, ?_⟩, ?_⟩
  · intro a b c ha hb hc habc
    rw [← hmain.1.2.2]
    exact hmain.2 a b c ha hb hc habc
  · rcases hconc with ⟨⟨hfound, hprod, harea⟩, hmin⟩
    have h222 := hmin 2 2 2 (by norm_num) (by norm_num) (by norm_num)
      (by norm_num)
    rw [harea] at h222
    set nx := (findDecomposition 2 2 2 8 0 0 0).nx with hnx
    set ny := (findDecomposition 2 2 2 8 0 0 0).ny with hny
    set nz := (findDecomposition 2 2 2 8 0 0 0).nz with hnz
    have hsumQ : (nx : ℚ) + ny + nz ≤ 6 := by
      unfold surfaceArea at h222
      push_cast at h222
      linarith
    have hsum : nx + ny + nz ≤ 6 := by exact_mod_cast hsumQ
    have hxpos : 0 < nx := by
      rcases Nat.eq_zero_or_pos nx with h | h
      · rw [h] at hprod; simp at hprod
      · exact h
    have hypos : 0 < ny := by
      rcases Nat.eq_zero_or_pos ny with h | h
      · rw [h] at hprod; simp at hprod
      · exact h
    have hzpos : 0 < nz := by
      rcases Nat.eq_zero_or_pos nz with h | h
      · rw [h] at hprod; simp at hprod
      · exact h
    have hx6 : nx ≤ 6 := by omega
    have hy6 : ny ≤ 6 := by omega
    clear hnx hny hnz hfound harea hmin h222 hsumQ
    interval_cases nx <;> interval_cases ny <;> omega

theorem C3_find_decomposition_minimal_witness :
    (findDecomposition 2 2 2 8 0 0 0).nx = 2 ∧
    (findDecomposition 2 2 2 8 0 0 0).ny = 2 ∧
    (findDecomposition 2 2 2 8 0 0 0).nz = 2 :=
  (C3_find_decomposition_minimal 2 2 2 8 (by norm_num) (by norm_num)
    (by norm_num) (by norm_num)).2

theorem fd_foldl_skip (Lx Ly Lz : ℚ) (P nxIn nyIn nzIn : ℕ) :
    ∀ (l : List (ℕ × ℕ × ℕ)) (s : FDState),
      (∀ t ∈ l, (nxIn ≠ 0 ∧ t.1 ≠ nxIn) ∨ (nyIn ≠ 0 ∧ t.2.1 ≠ nyIn) ∨
        (nzIn ≠ 0 ∧ t.2.2 ≠ nzIn) ∨ t.1 * t.2.1 * t.2.2 ≠ P) →
      l.foldl (fdStep Lx Ly Lz P nxIn nyIn nzIn) s = s := by
  intro l
  induction l with
  | nil => intro s _; rfl
  | cons t l ih =>
    intro s hall
    rw [List.foldl_cons]
    have hstep : fdStep Lx Ly Lz P nxIn nyIn nzIn s t = s := by
      have hguard := hall t (List.mem_cons_self _ _)
      unfold fdStep
      by_cases h1 : nxIn ≠ 0 ∧ t.1 ≠ nxIn
      · rw [if_pos h1]
      · rw [if_neg h1]
        by_cases h2 : nyIn ≠ 0 ∧ t.2.1 ≠ nyIn
        · rw [if_pos h2]
        · rw [if_neg h2]
          by_cases h3 : nzIn ≠ 0 ∧ t.2.2 ≠ nzIn
          · rw [if_pos h3]
          · rw [if_neg h3]
            have h4 : t.1 * t.2.1 * t.2.2 ≠ P := by tauto
            rw [if_pos h4]
    rw [hstep]
    exact ih s fun u hu => hall u (List.mem_cons_of_mem _ hu)

theorem fdTriples_pos {P : ℕ} {t : ℕ × ℕ × ℕ} (h : t ∈ fdTriples P) :
    1 ≤ t.1 ∧ 1 ≤ t.2.1 ∧ 1 ≤ t.2.2 := by
  unfold fdTriples at h
  rw [List.mem_flatMap] at h
  obtain ⟨a, ha, h⟩ := h
  rw [List.mem_flatMap] at h
  obtain ⟨b, hb, h⟩ := h
  rw [List.mem_map] at h
  obtain ⟨c, hc, rfl⟩ := h
  have ha' := mem_succ_range.mp ha
  have hb' := mem_succ_range.mp (List.mem_filter.mp hb).1
  have hc' := mem_succ_range.mp (List.mem_filter.mp hc).1
  exact ⟨ha'.1, hb'.1, hc'.1⟩

/-- C5 counterexample: with `P = 4` and the pinned request
`(nx, ny, nz) = (3, 0, 0)` (no factorization of 4 has `nx = 3`),
`findDecomposition` does return false, but the constructor does not abort:
its outcome is never `fatal` — it emits the diagnostic and falls back to
the unconstrained decomposition. -/
theorem C5_pinned_unsat_cex :
    (findDecomposition 2 2 2 4 3 0 0).found = false ∧
    constructorRoot 2 2 2 4 3 0 0 ≠ ConstructorOutcome.fatal := by
  have hskip : ∀ t ∈ fdTriples 4,
      ((3 : ℕ) ≠ 0 ∧ t.1 ≠ 3) ∨ ((0 : ℕ) ≠ 0 ∧ t.2.1 ≠ 0) ∨
      ((0 : ℕ) ≠ 0 ∧ t.2.2 ≠ 0) ∨ t.1 * t.2.1 * t.2.2 ≠ 4 := by
    decide
  have h1 : findDecomposition 2 2 2 4 3 0 0 =
      { nx := 1, ny := 1, nz := 4,
        minArea := 2 * 2 * ((4 : ℕ) : ℚ) + 2 * 2 + 2 * 2,
        found := decide ((3 : ℕ) = 0 ∧ (0 : ℕ) = 0 ∧ (0 : ℕ) = 0) } := by
    unfold findDecomposition
    exact fd_foldl_skip 2 2 2 4 3 0 0 (fdTriples 4) _ hskip
  constructor
  · rw [h1]
    decide
  · unfold constructorRoot
    rw [h1]
    simp

/-- C5 amended: when one or more of `nx, ny, nz` are pinned to nonzero
values and no factorization of the processor count matches them,
`findDecomposition` returns false (only factorizations matching the pinned
values are considered), and the constructor, rather than aborting, emits a
diagnostic and falls back to the unconstrained decomposition. -/
theorem C5_pinned_unsat_amended (Lx Ly Lz : ℚ) (P nxIn nyIn nzIn : ℕ)
    (hpin : ¬(nxIn = 0 ∧ nyIn = 0 ∧ nzIn = 0))
    (hnomatch : ∀ a b c : ℕ, 0 < a → 0 < b → 0 < c → a * b * c = P →
      ¬((nxIn = 0 ∨ a = nxIn) ∧ (nyIn = 0 ∨ b = nyIn) ∧
        (nzIn = 0 ∨ c = nzIn))) :
    (findDecomposition Lx Ly Lz P nxIn nyIn nzIn).found = false ∧
    constructorRoot Lx Ly Lz P nxIn nyIn nzIn =
      .ok true ((findDecomposition Lx Ly Lz P 0 0 0).nx,
        (findDecomposition Lx Ly Lz P 0 0 0).ny,
        (findDecomposition Lx Ly Lz P 0 0 0).nz) := by
  have hskip : ∀ t ∈ fdTriples P,
      (nxIn ≠ 0 ∧ t.1 ≠ nxIn) ∨ (nyIn ≠ 0 ∧ t.2.1 ≠ nyIn) ∨
      (nzIn ≠ 0 ∧ t.2.2 ≠ nzIn) ∨ t.1 * t.2.1 * t.2.2 ≠ P := by
    intro t ht
    by_cases hprod : t.1 * t.2.1 * t.2.2 = P
    · rcases fdTriples_pos ht with ⟨ha, hb, hc⟩
      have := hnomatch t.1 t.2.1 t.2.2 ha hb hc hprod
      tauto
    · tauto
  have h1 : findDecomposition Lx Ly Lz P nxIn nyIn nzIn =
      { nx := 1, ny := 1, nz := P,
        minArea := Lx * Ly * (P : ℚ) + Lx * Lz + Ly * Lz,
        found := decide (nxIn = 0 ∧ nyIn = 0 ∧ nzIn = 0) } := by
    unfold findDecomposition
    exact fd_foldl_skip Lx Ly Lz P nxIn nyIn nzIn (fdTriples P) _ hskip
  have hfound : (findDecomposition Lx Ly Lz P nxIn nyIn nzIn).found = false := by
    rw [h1]
    exact decide_eq_false hpin
  refine ⟨hfound, ?_⟩
  unfold constructorRoot
  rw [h1]
  simp [decide_eq_false hpin]

theorem C5_pinned_unsat_amended_witness :
    (findDecomposition 2 2 2 4 3 0 0).found = false ∧
    constructorRoot 2 2 2 4 3 0 0 =
      .ok true ((findDecomposition 2 2 2 4 0 0 0).nx,
        (findDecomposition 2 2 2 4 0 0 0).ny,
        (findDecomposition 2 2 2 4 0 0 0).nz) :=
  C5_pinned_unsat_amended 2 2 2 4 3 0 0 (by decide)
    (by
      intro a b c ha hb hc habc hmatch
      rcases hmatch.1 with h | h
      · cases h
      · have : 3 * (b * c) = 4 := by rw [← habc, h]; ring
        have hbc : 0 < b * c := by positivity
        omega)

/-! ### Theorems: C4 (getNeighborRank) -/

theorem wrapCoord_eq_emod {c : Int} {n : ℕ} (h1 : -1 ≤ c) (h2 : c ≤ (n : Int))
    (hn : 0 < n) : wrapCoord c n = c % (n : Int) := by
  unfold wrapCoord
  by_cases hc : c < 0
  · rw [if_pos hc]
    have hce : c = -1 := by omega
    subst hce
    have he : (-1 + (n : Int)) % (n : Int) = -1 + n :=
      Int.emod_eq_of_lt (by omega) (by omega)
    have he2 : (-1 + (n : Int) * 1) % (n : Int) = (-1 : Int) % (n : Int) :=
      Int.add_mul_emod_self_left (-1) ((n : Int)) 1
    rw [mul_one] at he2
    rw [← he2, he]
  · rw [if_neg hc]
    by_cases hce : c = (n : Int)
    · rw [if_pos hce, hce, Int.emod_self]
      omega
    · rw [if_neg hce]
      exact (Int.emod_eq_of_lt (by omega) (by omega)).symm

theorem wrapCoord_toNat_lt {c : Int} {n : ℕ} (h1 : -1 ≤ c) (h2 : c ≤ (n : Int))
    (hn : 0 < n) : (wrapCoord c n).toNat < n := by
  unfold wrapCoord
  split_ifs <;> omega

theorem wrapCoord_id {x n : ℕ} (h : x < n) : wrapCoord (x : Int) n = (x : Int) := by
  unfold wrapCoord
  split_ifs <;> omega

theorem wrap_round_pos {x n : ℕ} (h : x < n) :
    wrapCoord (((wrapCoord ((x : Int) + 1) n).toNat : Int) + -1) n = (x : Int) := by
  unfold wrapCoord
  split_ifs <;> omega

theorem wrap_round_neg {x n : ℕ} (h : x < n) :
    wrapCoord (((wrapCoord ((x : Int) + -1) n).toNat : Int) + 1) n = (x : Int) := by
  unfold wrapCoord
  split_ifs <;> omega

theorem getTriple_idx3D {nx ny : ℕ} (hnx : 0 < nx) (hny : 0 < ny)
    {i j : ℕ} (k : ℕ) (hi : i < nx) (hj : j < ny) :
    getTriple nx ny (idx3D nx ny i j k) = (i, j, k) := by
  unfold getTriple idx3D
  have hpos : 0 < nx * ny := by positivity
  have e1 : (k * ny + j) * nx + i = nx * (k * ny + j) + i := by ring
  have hmod : ((k * ny + j) * nx + i) % nx = i := by
    rw [e1, Nat.mul_add_mod, Nat.mod_eq_of_lt hi]
  have hdiv : ((k * ny + j) * nx + i) / nx = k * ny + j := by
    rw [e1, Nat.mul_add_div hnx, Nat.div_eq_of_lt hi, add_zero]
  have hmod2 : (k * ny + j) % ny = j := by
    rw [mul_comm k ny, Nat.mul_add_mod, Nat.mod_eq_of_lt hj]
  have e2 : (k * ny + j) * nx + i = nx * ny * k + (j * nx + i) := by ring
  have hsmall : j * nx + i < nx * ny := by
    calc j * nx + i < j * nx + nx := by omega
    _ = (j + 1) * nx := by ring
    _ ≤ ny * nx := Nat.mul_le_mul_right nx hj
    _ = nx * ny := by ring
  have hdiv2 : ((k * ny + j) * nx + i) / (nx * ny) = k := by
    rw [e2, Nat.mul_add_div hpos, Nat.div_eq_of_lt hsmall, add_zero]
  rw [hmod, hdiv, hmod2, hdiv2]

theorem idx3D_getTriple (nx ny r : ℕ) (hnx : 0 < nx) (hny : 0 < ny) :
    idx3D nx ny (r % nx) (r / nx % ny) (r / (nx * ny)) = r := by
  unfold idx3D
  rw [← Nat.div_div_eq_div_mul, mul_comm (r / nx / ny) ny, Nat.div_add_mod,
    mul_comm (r / nx) nx, Nat.div_add_mod]

/-- Helper: re-encoding the decoded grid coordinates of a rank gives the
rank back. -/
theorem idx3D_getTriple_eq {nx ny r i j k : ℕ} (hnx : 0 < nx) (hny : 0 < ny)
    (h : getTriple nx ny r = (i, j, k)) : idx3D nx ny i j k = r := by
  have h1 : r % nx = i := congrArg Prod.fst h
  have h2 : r / nx % ny = j := congrArg (fun p => p.2.1) h
  have h3 : r / (nx * ny) = k := congrArg (fun p => p.2.2) h
  rw [← h1, ← h2, ← h3]
  exact idx3D_getTriple nx ny r hnx hny

/-- C4: `getNeighborRank` returns the rank of the grid coordinate offset
by plus or minus one along the direction's axis, wrapped modulo that
axis's extent, and the neighbor relation is symmetric: the neighbor of A
in direction d has A as its neighbor in the opposite direction. -/
theorem C4_neighbor_rank_wrap_symm (nx ny nz rank dir : ℕ)
    (hnx : 0 < nx) (hny : 0 < ny) (hnz : 0 < nz)
    (hrank : rank < nx * ny * nz) (hdir : dir < 6) :
    getNeighborRank nx ny nz rank dir = neighborRankSpec nx ny nz rank dir ∧
    getNeighborRank nx ny nz (getNeighborRank nx ny nz rank dir)
      (oppositeDir dir) = rank := by
  obtain ⟨px, py, pz, hpx, hpy, hpz, hdec⟩ :
      ∃ px py pz, px < nx ∧ py < ny ∧ pz < nz ∧
        getTriple nx ny rank = (px, py, pz) := by
    refine ⟨rank % nx, rank / nx % ny, rank / (nx * ny),
      Nat.mod_lt _ hnx, Nat.mod_lt _ hny, ?_, rfl⟩
    rw [Nat.div_lt_iff_lt_mul (by positivity)]
    calc rank < nx * ny * nz := hrank
    _ = nz * (nx * ny) := by ring
  constructor
  · interval_cases dir <;>
      (simp only [getNeighborRank, neighborRankSpec, adjTable, add_zero, hdec]
       rw [wrapCoord_eq_emod (by omega) (by omega) hnx,
         wrapCoord_eq_emod (by omega) (by omega) hny,
         wrapCoord_eq_emod (by omega) (by omega) hnz])
  · interval_cases dir
    · simp only [getNeighborRank, adjTable, oppositeDir, add_zero, hdec,
        wrapCoord_id hpy, wrapCoord_id hpz, Int.toNat_natCast]
      rw [getTriple_idx3D hnx hny _
        (wrapCoord_toNat_lt (by omega) (by omega) hnx) hpy]
      simp only [Int.toNat_natCast, wrapCoord_id hpy, wrapCoord_id hpz,
        wrap_round_pos hpx]
      exact idx3D_getTriple_eq hnx hny hdec
    · simp only [getNeighborRank, adjTable, oppositeDir, add_zero, hdec,
        wrapCoord_id hpy, wrapCoord_id hpz, Int.toNat_natCast]
      rw [getTriple_idx3D hnx hny _
        (wrapCoord_toNat_lt (by omega) (by omega) hnx) hpy]
      simp only [Int.toNat_natCast, wrapCoord_id hpy, wrapCoord_id hpz,
        wrap_round_neg hpx]
      exact idx3D_getTriple_eq hnx hny hdec
    · simp only [getNeighborRank, adjTable, oppositeDir, add_zero, hdec,
        wrapCoord_id hpx, wrapCoord_id hpz, Int.toNat_natCast]
      rw [getTriple_idx3D hnx hny _ hpx
        (wrapCoord_toNat_lt (by omega) (by omega) hny)]
      simp only [Int.toNat_natCast, wrapCoord_id hpx, wrapCoord_id hpz,
        wrap_round_pos hpy]
      exact idx3D_getTriple_eq hnx hny hdec
    · simp only [getNeighborRank, adjTable, oppositeDir, add_zero, hdec,
        wrapCoord_id hpx, wrapCoord_id hpz, Int.toNat_natCast]
      rw [getTriple_idx3D hnx hny _ hpx
        (wrapCoord_toNat_lt (by omega) (by omega) hny)]
      simp only [Int.toNat_natCast, wrapCoord_id hpx, wrapCoord_id hpz,
        wrap_round_neg hpy]
      exact idx3D_getTriple_eq hnx hny hdec
    · simp only [getNeighborRank, adjTable, oppositeDir, add_zero, hdec,
        wrapCoord_id hpx, wrapCoord_id hpy, Int.toNat_natCast]
      rw [getTriple_idx3D hnx hny _ hpx hpy]
      simp only [Int.toNat_natCast, wrapCoord_id hpx, wrapCoord_id hpy,
        wrap_round_pos hpz]
      exact idx3D_getTriple_eq hnx hny hdec
    · simp only [getNeighborRank, adjTable, oppositeDir, add_zero, hdec,
        wrapCoord_id hpx, wrapCoord_id hpy, Int.toNat_natCast]
      rw [getTriple_idx3D hnx hny _ hpx hpy]
      simp only [Int.toNat_natCast, wrapCoord_id hpx, wrapCoord_id hpy,
        wrap_round_neg hpz]
      exact idx3D_getTriple_eq hnx hny hdec

theorem C4_neighbor_rank_wrap_symm_witness :
    getNeighborRank 2 3 4 23 0 = neighborRankSpec 2 3 4 23 0 ∧
    getNeighborRank 2 3 4 (getNeighborRank 2 3 4 23 0) (oppositeDir 0) = 23 :=
  C4_neighbor_rank_wrap_symm 2 3 4 23 0 (by decide) (by decide) (by decide)
    (by decide) (by decide)

/-! ### Theorems: C1 and C2 (convergence engine) -/

theorem rejectStep_congr (n : ℕ) (oc : Fin n → Bool) (T : Fin n → Fin n → Bool)
    (ord : Fin n → ℕ) (i : Fin n) {r r' : Fin n → Bool}
    (h : ∀ j, ord j < ord i → r j = r' j) :
    rejectStep n oc T ord r i = rejectStep n oc T ord r' i := by
  unfold rejectStep
  have heq : (fun j => decide (ord j < ord i) && !r j && T i j) =
      (fun j => decide (ord j < ord i) && !r' j && T i j) := by
    funext j
    by_cases hj : ord j < ord i
    · rw [h j hj]
    · simp [hj]
  rw [heq]

theorem earlierCount_lt (n : ℕ) (ord : Fin n → ℕ) {i j : Fin n}
    (h : ord j < ord i) : earlierCount n ord j < earlierCount n ord i := by
  unfold earlierCount
  apply Finset.card_lt_card
  have hsub : (Finset.univ.filter fun m => ord m < ord j) ⊆
      (Finset.univ.filter fun m => ord m < ord i) := by
    intro m hm
    rw [Finset.mem_filter] at hm ⊢
    exact ⟨hm.1, lt_trans hm.2 h⟩
  rw [Finset.ssubset_iff_of_subset hsub]
  refine ⟨j, Finset.mem_filter.mpr ⟨Finset.mem_univ _, h⟩, ?_⟩
  intro hmem
  rw [Finset.mem_filter] at hmem
  exact lt_irrefl _ hmem.2

theorem rejectIter_stable (n : ℕ) (oc : Fin n → Bool) (T : Fin n → Fin n → Bool)
    (ord : Fin n → ℕ) :
    ∀ (c : ℕ) (i : Fin n), earlierCount n ord i = c → ∀ k, c ≤ k →
      rejectIter n oc T ord (k + 1) i = rejectIter n oc T ord k i := by
  intro c
  induction c using Nat.strong_induction_on with
  | _ c IH =>
    intro i hci k hck
    cases k with
    | zero =>
      have hc0 : earlierCount n ord i = 0 := by omega
      have hnoj : ∀ j : Fin n, ¬ord j < ord i := by
        intro j hj
        have hmem : j ∈ Finset.univ.filter (fun m => ord m < ord i) :=
          Finset.mem_filter.mpr ⟨Finset.mem_univ _, hj⟩
        have hpos : 0 < earlierCount n ord i :=
          Finset.card_pos.mpr ⟨j, hmem⟩
        omega
      show rejectStep n oc T ord (rejectIter n oc T ord 0) i = oc i
      unfold rejectStep
      have hany : ((List.finRange n).any fun j =>
          decide (ord j < ord i) && !rejectIter n oc T ord 0 j && T i j) = false := by
        rw [List.any_eq_false]
        intro j _
        simp [hnoj j]
      rw [hany, Bool.or_false]
    | succ m =>
      show rejectStep n oc T ord (rejectIter n oc T ord (m + 1)) i =
        rejectStep n oc T ord (rejectIter n oc T ord m) i
      apply rejectStep_congr
      intro j hj
      have hjc : earlierCount n ord j < c := hci ▸ earlierCount_lt n ord hj
      exact IH _ hjc j rfl m (by omega)

theorem earlierCount_le_pred (n : ℕ) (ord : Fin n → ℕ) (i : Fin n) :
    earlierCount n ord i ≤ n - 1 := by
  unfold earlierCount
  have hsub : (Finset.univ.filter fun j => ord j < ord i) ⊆
      Finset.univ.erase i := by
    intro m hm
    rw [Finset.mem_filter] at hm
    rw [Finset.mem_erase]
    refine ⟨?_, Finset.mem_univ _⟩
    intro he
    rw [he] at hm
    exact lt_irrefl _ hm.2
  calc (Finset.univ.filter fun j => ord j < ord i).card
      ≤ (Finset.univ.erase i).card := Finset.card_le_card hsub
  _ = n - 1 := by
    rw [Finset.card_erase_of_mem (Finset.mem_univ _)]
    simp

theorem rejectIter_fix (n : ℕ) (oc : Fin n → Bool) (T : Fin n → Fin n → Bool)
    (ord : Fin n → ℕ) (k : ℕ) (hk : n - 1 ≤ k) :
    rejectIter n oc T ord (k + 1) = rejectIter n oc T ord k := by
  funext i
  refine rejectIter_stable n oc T ord (earlierCount n ord i) i rfl k ?_
  have := earlierCount_le_pred n ord i
  omega

/-- C2: the convergence loop of one sweep over `n >= 1` local particles
exits after at most `n` executed iterations: there is a first iteration
index `k <= n` at which the swap leaves the reject array unchanged, so the
condition word stays zero and the while-loop terminates. -/
theorem C2_convergence_terminates (n : ℕ) (oc : Fin n → Bool)
    (T : Fin n → Fin n → Bool) (ord : Fin n → ℕ) (hn : 0 < n) :
    ∃ k, k ≤ n ∧ convergedAt n oc T ord k ∧
      ∀ m, m < k → ¬convergedAt n oc T ord m := by
  have hex : convergedAt n oc T ord n := by
    refine ⟨hn, ?_⟩
    have hfix := rejectIter_fix n oc T ord (n - 1) (le_refl _)
    rw [Nat.sub_add_cancel hn] at hfix
    simpa using hfix
  have hall : ∃ k, convergedAt n oc T ord k := ⟨n, hex⟩
  exact ⟨Nat.find hall, Nat.find_min' hall hex, Nat.find_spec hall,
    fun m hm => Nat.find_min hall hm⟩

theorem C2_convergence_terminates_witness :
    ∃ k, k ≤ 2 ∧ convergedAt 2 (fun _ => false) (fun _ _ => true)
        (fun i => i.val) k ∧
      ∀ m, m < k → ¬convergedAt 2 (fun _ => false) (fun _ _ => true)
        (fun i => i.val) m :=
  C2_convergence_terminates 2 (fun _ => false) (fun _ _ => true)
    (fun i => i.val) (by decide)

/-- C1 counterexample: three particles with the trial/trial conflict graph
0 - 1 - 2 and update order 0 < 1 < 2, no static rejections.  After one
iteration particles 1 and 2 are both rejected (each sees an earlier
unrejected conflicting neighbor); after the second iteration particle 2's
reject flag reverts to false, because its only earlier conflicting
neighbor 1 is now itself rejected.  So a reject flag does revert
true -> false within a sweep, refuting the claimed monotonicity. -/
theorem C1_reject_monotone_cex :
    rejectIter 3 (fun _ => false)
      (fun i j => (decide (i.val = 0) && decide (j.val = 1)) ||
        (decide (i.val = 1) && decide (j.val = 0)) ||
        (decide (i.val = 1) && decide (j.val = 2)) ||
        (decide (i.val = 2) && decide (j.val = 1)))
      (fun i => i.val) 1 (2 : Fin 3) = true ∧
    rejectIter 3 (fun _ => false)
      (fun i j => (decide (i.val = 0) && decide (j.val = 1)) ||
        (decide (i.val = 1) && decide (j.val = 0)) ||
        (decide (i.val = 1) && decide (j.val = 2)) ||
        (decide (i.val = 2) && decide (j.val = 1)))
      (fun i => i.val) 2 (2 : Fin 3) = false := by
  decide

/-- C1 amended: within one sweep the reject flag is not monotone in
general — a rejection caused by a trial/trial conflict can revert
true -> false (see the counterexample).  What does hold: (a) the static
seed is monotone, i.e. a particle with `reject_out_of_cell` set stays
rejected at every iteration; and (b) each particle's flag stabilizes after
at most as many iterations as it has strictly earlier particles in the
update order, so it changes value only finitely often before the loop
exits. -/
theorem C1_reject_monotone_amended (n : ℕ) (oc : Fin n → Bool)
    (T : Fin n → Fin n → Bool) (ord : Fin n → ℕ) :
    (∀ (k : ℕ) (i : Fin n), oc i = true → rejectIter n oc T ord k i = true) ∧
    (∀ (i : Fin n) (k : ℕ), earlierCount n ord i ≤ k →
      rejectIter n oc T ord (k + 1) i = rejectIter n oc T ord k i) := by
  constructor
  · intro k i hoc
    cases k with
    | zero => exact hoc
    | succ m =>
      show rejectStep n oc T ord (rejectIter n oc T ord m) i = true
      unfold rejectStep
      rw [hoc, Bool.true_or]
  · intro i k hk
    exact rejectIter_stable n oc T ord (earlierCount n ord i) i rfl k hk

theorem C1_reject_monotone_amended_witness :
    rejectIter 1 (fun _ => true) (fun _ _ => false) (fun i => i.val) 3
      ⟨0, Nat.zero_lt_one⟩ = true :=
  (C1_reject_monotone_amended 1 (fun _ => true) (fun _ _ => false)
    (fun i => i.val)).1 3 ⟨0, Nat.zero_lt_one⟩ rfl

end Hoomd
